import Mathlib

/-!
Verification of the streaming batch-transfer engine
(Elasticsearch → ClickHouse user migration).

Shallow embedding of:
  * `src/repositories/elasticsearch-user.repository.ts` / `src/unnamed/part_007`
    (`ElasticsearchUserRepository`)
  * `src/repositories/clickhouse-user.repository.ts` (`ClickHouseUserRepository`)
  * `src/services/migration.service.ts` (`MigrationService`)

Conventions of the embedding:
  * promises that may reject become `Except Err _`;
  * an async generator that does not fail mid-stream becomes the list of
    batches it yields;
  * the injected repository instances of `MigrationService` become explicit
    operation records over an abstract state type;
  * JS strings are `String` (ids) or `List Char` (timestamps, where we reason
    character by character).
-/

/-- The `User` entity of `src/types/index.ts`: id, firstName, lastName, age,
followersCount, timestamp (ISO timestamp string, kept as a character list). -/
structure User where
  id : String
  firstName : String
  lastName : String
  age : Nat
  followersCount : Nat
  timestamp : List Char
deriving DecidableEq, Repr

/-- Error value (a thrown JS error / rejected promise reason). JS errors may
carry arbitrary data; `probeLog` is used by an instrumented test double to
carry the batches a target repository had accepted before a failure. -/
inductive Err where
  | transport
  | notFound
  | other
  | probeLog (log : List (List User))
deriving DecidableEq, Repr

/-- Splitting a list into consecutive chunks of size `B` (last chunk partial).
This is the batch shape both `findAll` generators produce: the Elasticsearch
scroll helper pages a `match_all` result set `size: batchSize` at a time, and
the ClickHouse re-batching loop is proved below to reduce to this shape. -/
def chunksOf : Nat → List α → List (List α)
  | _, [] => []
  | 0, _ :: _ => []
  | B + 1, a :: l => ((a :: l).take (B + 1)) :: chunksOf (B + 1) ((a :: l).drop (B + 1))
termination_by _ l => l.length
decreasing_by
  simp only [List.drop_succ_cons, List.length_drop, List.length_cons]
  omega

theorem chunksOf_nil (B : Nat) : chunksOf B ([] : List α) = [] := by
  cases B <;> simp [chunksOf]

theorem chunksOf_zero (l : List α) : chunksOf 0 l = [] := by
  cases l <;> simp [chunksOf]

theorem chunksOf_of_ne (B : Nat) (l : List α) (hl : l ≠ []) (hB : B ≠ 0) :
    chunksOf B l = l.take B :: chunksOf B (l.drop B) := by
  match B, l with
  | 0, _ => exact absurd rfl hB
  | B + 1, [] => exact absurd rfl hl
  | B + 1, a :: l => simp [chunksOf]

/-- Chunking then flattening recovers the original list (for `B ≥ 1`). -/
theorem flatten_chunksOf (B : Nat) (hB : 1 ≤ B) :
    ∀ l : List α, (chunksOf B l).flatten = l := by
  have key : ∀ (n : Nat) (l : List α), l.length ≤ n → (chunksOf B l).flatten = l := by
    intro n
    induction n with
    | zero =>
      intro l hl
      have : l = [] := List.eq_nil_of_length_eq_zero (Nat.le_zero.mp hl)
      subst this; simp [chunksOf_nil]
    | succ m ih =>
      intro l hl
      by_cases hnil : l = []
      · subst hnil; simp [chunksOf_nil]
      · rw [chunksOf_of_ne B l hnil (by omega)]
        have hlen : (l.drop B).length ≤ m := by
          have := List.length_drop B l
          have hpos : 0 < l.length := List.length_pos.mpr hnil
          omega
        simp [ih (l.drop B) hlen]
  intro l
  exact key l.length l le_rfl

/-- Every chunk produced by `chunksOf` is non-empty. -/
theorem ne_nil_of_mem_chunksOf (B : Nat) :
    ∀ (l : List α), ∀ c ∈ chunksOf B l, c ≠ [] := by
  have key : ∀ (n : Nat) (l : List α), l.length ≤ n → ∀ c ∈ chunksOf B l, c ≠ [] := by
    intro n
    induction n with
    | zero =>
      intro l hl c hc
      have : l = [] := List.eq_nil_of_length_eq_zero (Nat.le_zero.mp hl)
      subst this; simp [chunksOf_nil] at hc
    | succ m ih =>
      intro l hl c hc
      by_cases hnil : l = []
      · subst hnil; simp [chunksOf_nil] at hc
      · by_cases hB : B = 0
        · subst hB; simp [chunksOf_zero] at hc
        · rw [chunksOf_of_ne B l hnil hB] at hc
          rcases List.mem_cons.mp hc with h | h
          · subst h
            intro habs
            have := congrArg List.length habs
            simp at this
            rcases this with h1 | h1
            · exact hB h1
            · exact hnil h1
          · have hlen : (l.drop B).length ≤ m := by
              have := List.length_drop B l
              have hpos : 0 < l.length := List.length_pos.mpr hnil
              omega
            exact ih (l.drop B) hlen c h
  intro l
  exact key l.length l le_rfl

/-- Every chunk produced by `chunksOf B` has length at most `B`. -/
theorem length_le_of_mem_chunksOf (B : Nat) :
    ∀ (l : List α), ∀ c ∈ chunksOf B l, c.length ≤ B := by
  have key : ∀ (n : Nat) (l : List α), l.length ≤ n → ∀ c ∈ chunksOf B l, c.length ≤ B := by
    intro n
    induction n with
    | zero =>
      intro l hl c hc
      have : l = [] := List.eq_nil_of_length_eq_zero (Nat.le_zero.mp hl)
      subst this; simp [chunksOf_nil] at hc
    | succ m ih =>
      intro l hl c hc
      by_cases hnil : l = []
      · subst hnil; simp [chunksOf_nil] at hc
      · by_cases hB : B = 0
        · subst hB; simp [chunksOf_zero] at hc
        · rw [chunksOf_of_ne B l hnil hB] at hc
          rcases List.mem_cons.mp hc with h | h
          · subst h; simp
          · have hlen : (l.drop B).length ≤ m := by
              have := List.length_drop B l
              have hpos : 0 < l.length := List.length_pos.mpr hnil
              omega
            exact ih (l.drop B) hlen c h
  intro l
  exact key l.length l le_rfl

/-- Every chunk except the last has length exactly `B`. -/
theorem length_eq_of_mem_dropLast_chunksOf (B : Nat) :
    ∀ (l : List α), ∀ c ∈ (chunksOf B l).dropLast, c.length = B := by
  have key : ∀ (n : Nat) (l : List α), l.length ≤ n →
      ∀ c ∈ (chunksOf B l).dropLast, c.length = B := by
    intro n
    induction n with
    | zero =>
      intro l hl c hc
      have : l = [] := List.eq_nil_of_length_eq_zero (Nat.le_zero.mp hl)
      subst this; simp [chunksOf_nil] at hc
    | succ m ih =>
      intro l hl c hc
      by_cases hnil : l = []
      · subst hnil; simp [chunksOf_nil] at hc
      · by_cases hB : B = 0
        · subst hB; simp [chunksOf_zero] at hc
        · rw [chunksOf_of_ne B l hnil hB] at hc
          by_cases hrest : chunksOf B (l.drop B) = []
          · rw [hrest] at hc; simp at hc
          · rw [List.dropLast_cons_of_ne_nil hrest] at hc
            rcases List.mem_cons.mp hc with h | h
            · subst h
              have hdrop : l.drop B ≠ [] := by
                intro habs; rw [habs, chunksOf_nil] at hrest; exact hrest rfl
              have : B < l.length := by
                by_contra hle
                push_neg at hle
                exact hdrop (List.drop_eq_nil_of_le hle)
              simp [List.length_take]
              omega
            · have hlen : (l.drop B).length ≤ m := by
                have := List.length_drop B l
                have hpos : 0 < l.length := List.length_pos.mpr hnil
                omega
              exact ih (l.drop B) hlen c h
  intro l
  exact key l.length l le_rfl

/-- The last chunk has length `l.length % B` when that is positive
(and length `B` when `B` divides `l.length`, the list being non-empty). -/
theorem getLast_length_chunksOf (B : Nat) (hB : 1 ≤ B) :
    ∀ (l : List α), l ≠ [] →
      ∃ c, (chunksOf B l).getLast? = some c ∧
        c.length = (if l.length % B = 0 then B else l.length % B) := by
  have key : ∀ (n : Nat) (l : List α), l.length ≤ n → l ≠ [] →
      ∃ c, (chunksOf B l).getLast? = some c ∧
        c.length = (if l.length % B = 0 then B else l.length % B) := by
    intro n
    induction n with
    | zero =>
      intro l hl hnil
      exact absurd (List.eq_nil_of_length_eq_zero (Nat.le_zero.mp hl)) hnil
    | succ m ih =>
      intro l hl hnil
      rw [chunksOf_of_ne B l hnil (by omega)]
      by_cases hdrop : l.drop B = []
      · have hle : l.length ≤ B := by
          by_contra hlt
          push_neg at hlt
          have : (l.drop B).length = l.length - B := List.length_drop B l
          rw [hdrop] at this
          simp at this
          omega
        refine ⟨l, ?_, ?_⟩
        · rw [hdrop, chunksOf_nil, List.take_of_length_le hle]
          rfl
        · by_cases heq : l.length = B
          · simp [heq, Nat.mod_self]
          · have hlt : l.length < B := by omega
            rw [Nat.mod_eq_of_lt hlt]
            have : l.length ≠ 0 := fun h => hnil (List.eq_nil_of_length_eq_zero h)
            simp [this]
      · have hlt : B < l.length := by
          by_contra hle
          push_neg at hle
          exact hdrop (List.drop_eq_nil_of_le hle)
        have hlen : (l.drop B).length ≤ m := by
          have := List.length_drop B l
          omega
        obtain ⟨c, hc1, hc2⟩ := ih (l.drop B) hlen hdrop
        refine ⟨c, ?_, ?_⟩
        · have hne : chunksOf B (l.drop B) ≠ [] := by
            intro habs; rw [habs] at hc1; simp at hc1
          match hmt : chunksOf B (l.drop B) with
          | [] => exact absurd hmt hne
          | d :: ds =>
            rw [List.getLast?_cons_cons, ← hmt]
            exact hc1
        · rw [hc2]
          have hdl : (l.drop B).length = l.length - B := List.length_drop B l
          have hmodeq : (l.length - B) % B = l.length % B := by
            conv_rhs => rw [show l.length = B + (l.length - B) by omega]
            rw [Nat.add_mod_left]
          rw [hdl, hmodeq]
  intro l hnil
  exact key l.length l le_rfl hnil

/-- The inner `while (buffer.length >= batchSize)` loop of
`ClickHouseUserRepository.findAll`: repeatedly emits `buffer.slice(0, B)` and
keeps `buffer.slice(B)`, until fewer than `B` elements remain. Returns the
emitted batches and the final buffer. (`B ≥ 1` is required for termination,
as in the JS code.) -/
def drain : Nat → List α → List (List α) × List α
  | _, [] => ([], [])
  | 0, buf => ([], buf)
  | B + 1, a :: buf =>
    if B + 1 ≤ (a :: buf).length then
      let p := drain (B + 1) ((a :: buf).drop (B + 1))
      ((a :: buf).take (B + 1) :: p.1, p.2)
    else ([], a :: buf)
termination_by _ buf => buf.length
decreasing_by
  simp only [List.drop_succ_cons, List.length_drop, List.length_cons]
  omega

theorem drain_of_lt (B : Nat) (buf : List α) (h : buf.length < B) :
    drain B buf = ([], buf) := by
  match B, buf with
  | B, [] =>
    cases B <;> simp [drain]
  | 0, a :: buf => simp at h
  | B + 1, a :: buf =>
    rw [drain]
    simp only [if_neg (by omega : ¬ B + 1 ≤ (a :: buf).length)]

theorem drain_of_le (B : Nat) (buf : List α) (hB : B ≠ 0) (h : B ≤ buf.length) :
    drain B buf =
      ((buf.take B :: (drain B (buf.drop B)).1), (drain B (buf.drop B)).2) := by
  match B, buf with
  | 0, _ => exact absurd rfl hB
  | B + 1, [] => simp at h
  | B + 1, a :: buf =>
    rw [drain]
    simp only [if_pos h]

/-- The leftover buffer after `drain` always has length `< B` (for `B ≥ 1`). -/
theorem drain_snd_length (B : Nat) (hB : 1 ≤ B) :
    ∀ buf : List α, (drain B buf).2.length < B := by
  have key : ∀ (n : Nat) (buf : List α), buf.length ≤ n → (drain B buf).2.length < B := by
    intro n
    induction n with
    | zero =>
      intro buf hl
      have : buf = [] := List.eq_nil_of_length_eq_zero (Nat.le_zero.mp hl)
      subst this
      cases B with
      | zero => omega
      | succ b => simp [drain]
    | succ m ih =>
      intro buf hl
      by_cases hge : B ≤ buf.length
      · rw [drain_of_le B buf (by omega) hge]
        have hlen : (buf.drop B).length ≤ m := by
          have := List.length_drop B buf
          omega
        exact ih (buf.drop B) hlen
      · push_neg at hge
        rw [drain_of_lt B buf hge]
        exact hge
  intro buf
  exact key buf.length buf le_rfl

/-- `drain`'s emitted batches, followed by the chunks of the leftover, are
exactly the chunks of the buffer with any continuation appended. -/
theorem drain_chunksOf (B : Nat) (hB : 1 ≤ B) :
    ∀ (buf rest : List α),
      (drain B buf).1 ++ chunksOf B ((drain B buf).2 ++ rest) =
        chunksOf B (buf ++ rest) := by
  have key : ∀ (n : Nat) (buf : List α), buf.length ≤ n → ∀ rest : List α,
      (drain B buf).1 ++ chunksOf B ((drain B buf).2 ++ rest) =
        chunksOf B (buf ++ rest) := by
    intro n
    induction n with
    | zero =>
      intro buf hl rest
      have : buf = [] := List.eq_nil_of_length_eq_zero (Nat.le_zero.mp hl)
      subst this
      cases B with
      | zero => omega
      | succ b => simp [drain]
    | succ m ih =>
      intro buf hl rest
      by_cases hge : B ≤ buf.length
      · rw [drain_of_le B buf (by omega) hge]
        have hbufne : buf ≠ [] := by
          intro habs; subst habs; simp at hge; omega
        have happne : buf ++ rest ≠ [] := by
          simp [hbufne]
        rw [chunksOf_of_ne B (buf ++ rest) happne (by omega)]
        rw [List.take_append_of_le_length hge, List.drop_append_of_le_length hge]
        have hlen : (buf.drop B).length ≤ m := by
          have := List.length_drop B buf
          omega
        rw [List.cons_append, ih (buf.drop B) hlen rest]
      · push_neg at hge
        rw [drain_of_lt B buf hge]
        simp
  intro buf rest
  exact key buf.length buf le_rfl rest

/-- The `for await (const rows of stream)` loop of
`ClickHouseUserRepository.findAll`: each stream chunk is appended to the
buffer (`buffer.push(...users)`), then the `while` loop (`drain`) emits
full-size batches. Accumulates emitted batches and carries the buffer. -/
def rebatchGo (B : Nat) : List (List α) → List α → List (List α) → List (List α) × List α
  | acc, buf, [] => (acc, buf)
  | acc, buf, c :: cs =>
    let p := drain B (buf ++ c)
    rebatchGo B (acc ++ p.1) p.2 cs

/-- `ClickHouseUserRepository.findAll(batchSize)`, as a function of the raw
row chunks delivered by the ClickHouse result stream (whose concatenation is
the `SELECT * ... ORDER BY id` result): re-batches them through the buffer
loop and finally yields the remaining buffer if non-empty. -/
def chFindAll (B : Nat) (streamChunks : List (List User)) : List (List User) :=
  let p := rebatchGo B [] [] streamChunks
  p.1 ++ (if 0 < p.2.length then [p.2] else [])

/-- `ElasticsearchUserRepository.findAll(batchSize)`: the scroll helper pages
the `match_all` result set `batchSize` documents at a time, in the store's
scroll order (no sort is requested); pages are yielded until an empty page
ends the loop. `docs` is the indexed document list in scroll order. -/
def esFindAll (B : Nat) (docs : List User) : List (List User) :=
  chunksOf B docs

/-- Generalized invariant for the re-batching fold: starting from a buffer
shorter than `B`, the emitted batches followed by the wrapped leftover are
exactly the `chunksOf` of everything seen. -/
theorem rebatchGo_spec (B : Nat) (hB : 1 ≤ B) :
    ∀ (cs : List (List α)) (acc : List (List α)) (buf : List α),
      buf.length < B →
      (rebatchGo B acc buf cs).1 ++
          (if 0 < (rebatchGo B acc buf cs).2.length then [(rebatchGo B acc buf cs).2]
           else []) =
        acc ++ chunksOf B (buf ++ cs.flatten) ∧
      (rebatchGo B acc buf cs).2.length < B := by
  intro cs
  induction cs with
  | nil =>
    intro acc buf hbuf
    constructor
    · simp only [rebatchGo, List.flatten_nil, List.append_nil]
      by_cases hnil : buf = []
      · subst hnil; simp [chunksOf_nil]
      · rw [chunksOf_of_ne B buf hnil (by omega)]
        rw [List.take_of_length_le (by omega), List.drop_eq_nil_of_le (by omega)]
        simp [chunksOf_nil, List.length_pos, hnil]
    · simpa [rebatchGo] using hbuf
  | cons c cs ih =>
    intro acc buf hbuf
    have hleft : (drain B (buf ++ c)).2.length < B := drain_snd_length B hB (buf ++ c)
    obtain ⟨ih1, ih2⟩ := ih (acc ++ (drain B (buf ++ c)).1) (drain B (buf ++ c)).2 hleft
    have hstep :
        rebatchGo B acc buf (c :: cs) =
          rebatchGo B (acc ++ (drain B (buf ++ c)).1) (drain B (buf ++ c)).2 cs := rfl
    constructor
    · rw [hstep, ih1, List.append_assoc]
      rw [drain_chunksOf B hB (buf ++ c) cs.flatten]
      simp [List.append_assoc]
    · rw [hstep]
      exact ih2

/-- The ClickHouse re-batching generator yields exactly the `chunksOf B` of
the full (ordered) row sequence, independent of how the transport stream
happened to chunk the rows. -/
theorem chFindAll_eq_chunksOf (B : Nat) (hB : 1 ≤ B)
    (streamChunks : List (List User)) :
    chFindAll B streamChunks = chunksOf B streamChunks.flatten := by
  have h := rebatchGo_spec B hB streamChunks [] [] (by simpa using hB)
  unfold chFindAll
  simpa using h.1

/-- JS `String.prototype.replace` with a single-character pattern and a
single-character replacement: replaces only the first occurrence. -/
def replaceFirstChar (a b : Char) : List Char → List Char
  | [] => []
  | c :: cs => if c = a then b :: cs else c :: replaceFirstChar a b cs

/-- JS `String.prototype.replace` with a single-character pattern and the
empty replacement string: removes only the first occurrence. -/
def removeFirstChar (a : Char) : List Char → List Char
  | [] => []
  | c :: cs => if c = a then cs else c :: removeFirstChar a cs

/-- The timestamp encoding applied by `ClickHouseUserRepository.insert`:
`user.timestamp.replace("T", " ").replace("Z", "")`. -/
def encodeTimestamp (t : List Char) : List Char :=
  removeFirstChar 'Z' (replaceFirstChar 'T' ' ' t)

/-- The per-record transformation of `ClickHouseUserRepository.insert`
(spread plus re-encoded timestamp). -/
def chEncodeUser (u : User) : User :=
  { u with timestamp := encodeTimestamp u.timestamp }

/-- Outcome of the Elasticsearch `client.bulk` call: either the promise
rejects (transport/connectivity) or a response arrives whose `errors` flag
says whether any item failed to index. -/
inductive BulkOutcome where
  | thrown (e : Err)
  | response (errors : Bool)
deriving DecidableEq, Repr

/-- `ElasticsearchUserRepository.insert(users)`: empty input returns at once;
a thrown `client.bulk` error is logged and re-thrown; a response with
`errors: true` only triggers `logger.warn` and the method resolves. -/
def esInsert (users : List User) (bulk : BulkOutcome) : Except Err Unit :=
  if users.length = 0 then .ok ()
  else
    match bulk with
    | .thrown e => .error e
    | .response _errors => .ok ()

/-- `ClickHouseUserRepository.insert(users)` as a function of the
`client.insert` outcome: empty input returns at once; a thrown client error
is logged and re-thrown; otherwise the method resolves. -/
def chInsert (users : List User) (clientCall : Except Err Unit) : Except Err Unit :=
  if users.length = 0 then .ok ()
  else
    match clientCall with
    | .ok () => .ok ()
    | .error e => .error e

/-- `ClickHouseUserRepository.getSample(count)` as a function of the
`client.query` outcome: result rows are normalized to an array and
flattened; a thrown error is logged and swallowed — the method resolves
with `[]`. -/
def chGetSample (clientCall : Except Err (List User)) : Except Err (List User) :=
  match clientCall with
  | .ok rows => .ok rows
  | .error _ => .ok []

/-- `ElasticsearchUserRepository.getSample(count)` as a function of the
`client.search` outcome: hits are mapped to their `_source`; a thrown error
is logged and swallowed — the method resolves with `[]`. -/
def esGetSample (clientCall : Except Err (List User)) : Except Err (List User) :=
  match clientCall with
  | .ok hits => .ok hits
  | .error _ => .ok []

/-- `ClickHouseUserRepository.count()` as a function of the `client.query`
outcome: a thrown error is logged and re-thrown. -/
def chCount (clientCall : Except Err Nat) : Except Err Nat :=
  match clientCall with
  | .ok n => .ok n
  | .error e => .error e

/-- `ClickHouseUserRepository.findAll` error path: a `client.query` failure
when opening the stream is logged and re-thrown by the generator. -/
def chFindAllOpen (clientCall : Except Err (List (List User))) (B : Nat) :
    Except Err (List (List User)) :=
  match clientCall with
  | .ok streamChunks => .ok (chFindAll B streamChunks)
  | .error e => .error e

/-- `ClickHouseUserRepository.findByIds(ids)` as a function of the table
state (`none` = table absent): the empty id list short-circuits before any
client call; otherwise the `WHERE id IN ({ids})` query returns the rows whose
id is among `ids`, and a thrown query error is swallowed into `[]`. The
boolean records whether a query was issued. -/
def chFindByIds (ids : List String) (s : Option (List User)) : List User × Bool :=
  if ids.length = 0 then ([], false)
  else
    match s with
    | none => ([], true)
    | some rows => (rows.filter (fun u => ids.contains u.id), true)

/-- An indexed Elasticsearch document: the document metadata `_id` together
with its `_source` user record. `ElasticsearchUserRepository.insert`
bulk-indexes with `{ index: { _index } }` actions that carry no `_id`, so the
server assigns each document an auto-generated `_id` unrelated to the
record's `id` source field. -/
structure ESDoc where
  docId : String
  src : User
deriving DecidableEq, Repr

/-- `ElasticsearchUserRepository.findByIds(ids)` as a function of the indexed
documents: the empty id list short-circuits before any client call; otherwise
the `{ ids: { values: ids } }` query — which matches the document metadata
`_id`, not the `id` source field — returns, with `size: ids.length`, the
`_source`s of the documents whose `_id` occurs in `ids`, capped at
`ids.length` hits. -/
def esFindByIds (ids : List String) (docs : List ESDoc) : List User × Bool :=
  if ids.length = 0 then ([], false)
  else
    (((docs.filter (fun d => ids.contains d.docId)).map ESDoc.src).take
      ids.length, true)

/-- `ClickHouseUserRepository.exists()` as a function of the `client.query`
outcome (the parsed `result` column values): the rows are normalized to an
array and the check is `rows.length > 0 && rows[0].result === 1`; a thrown
error is logged and re-thrown. -/
def chExistsOp (clientCall : Except Err (List Nat)) : Except Err Bool :=
  match clientCall with
  | .ok rows => .ok (decide (rows ≠ [] ∧ rows.headD 0 = 1))
  | .error e => .error e

/-- `ClickHouseUserRepository.create()` as a function of the combined
outcome of its client calls (`EXISTS`, `DROP`, `CREATE`): any thrown error
is logged and re-thrown. -/
def chCreateOp (clientCall : Except Err Unit) : Except Err Unit :=
  match clientCall with
  | .ok () => .ok ()
  | .error e => .error e

/-- `ClickHouseUserRepository.clear()` as a function of the combined outcome
of its client calls (`EXISTS`, `TRUNCATE`): any thrown error is logged and
re-thrown. -/
def chClearOp (clientCall : Except Err Unit) : Except Err Unit :=
  match clientCall with
  | .ok () => .ok ()
  | .error e => .error e

/-- `ElasticsearchUserRepository.exists()` as a function of the
`indices.exists` outcome: a thrown error is logged and re-thrown. -/
def esExistsOp (clientCall : Except Err Bool) : Except Err Bool :=
  match clientCall with
  | .ok b => .ok b
  | .error e => .error e

/-- `ElasticsearchUserRepository.create()` as a function of the combined
outcome of its client calls (`indices.exists`, `indices.delete`,
`indices.create`): any thrown error is logged and re-thrown. -/
def esCreateOp (clientCall : Except Err Unit) : Except Err Unit :=
  match clientCall with
  | .ok () => .ok ()
  | .error e => .error e

/-- `ElasticsearchUserRepository.clear()` as a function of the
`indices.delete` outcome: a thrown error is logged and re-thrown. -/
def esClearOp (clientCall : Except Err Unit) : Except Err Unit :=
  match clientCall with
  | .ok () => .ok ()
  | .error e => .error e

/-- `ElasticsearchUserRepository.count()` as a function of the
`client.count` outcome (`result.count`): a thrown error is logged and
re-thrown. -/
def esCountOp (clientCall : Except Err Nat) : Except Err Nat :=
  match clientCall with
  | .ok n => .ok n
  | .error e => .error e

/-- `ElasticsearchUserRepository.findAll` error path, as a function of the
scroll outcome: the generator yields the scroll pages until the first empty
page (`if (response.documents.length === 0) break`); a thrown scroll error
is logged and re-thrown. -/
def esFindAllOp (clientCall : Except Err (List (List User))) :
    Except Err (List (List User)) :=
  match clientCall with
  | .ok pages => .ok (pages.takeWhile (fun p => !p.isEmpty))
  | .error e => .error e

/-- `ClickHouseUserRepository.findByIds(ids)` as a function of the
`client.query` outcome: the empty id list short-circuits before any client
call; the result rows are normalized to an array; a thrown error is logged
and swallowed — the method resolves with `[]`. -/
def chFindByIdsOp (ids : List String) (clientCall : Except Err (List User)) :
    Except Err (List User) :=
  if ids.length = 0 then .ok []
  else
    match clientCall with
    | .ok rows => .ok rows
    | .error _ => .ok []

/-- `ElasticsearchUserRepository.findByIds(ids)` as a function of the
`client.search` outcome: the empty id list short-circuits before any client
call; hits are mapped to their `_source`; a thrown error is logged and
swallowed — the method resolves with `[]`. -/
def esFindByIdsOp (ids : List String) (clientCall : Except Err (List User)) :
    Except Err (List User) :=
  if ids.length = 0 then .ok []
  else
    match clientCall with
    | .ok hits => .ok hits
    | .error _ => .ok []

/-- The source repository operations `MigrationService.migrate` uses, over an
abstract source state `σ` (the constructor-injected `sourceRepository`). -/
structure SourceRepo (σ : Type) where
  count : σ → Except Err (Nat × σ)
  findAll : Nat → σ → Except Err (List (List User) × σ)

/-- The target repository operations `MigrationService.migrate` uses, over an
abstract target state `τ` (the constructor-injected `targetRepository`). -/
structure TargetRepo (τ : Type) where
  create : τ → Except Err τ
  clear : τ → Except Err τ
  insert : List User → τ → Except Err τ
  count : τ → Except Err (Nat × τ)

/-- The migration outcome (`MigrationResult` of `src/types/index.ts`), without
the wall-clock `durationMs` field, which the embedding does not model. -/
structure MigrationResult where
  sourceCount : Nat
  targetCount : Nat
  success : Bool
deriving DecidableEq, Repr

/-- The `for await (const users of findAll(batchSize))` loop of
`MigrationService.migrate`: inserts each batch into the target, accumulates
`processedCount += users.length`, and invokes
`onProgress(processedCount, sourceCount)` after each batch. An insert
rejection exits the loop immediately (the surrounding try re-throws). The
second component of the returned pair is the record of `onProgress`
invocations — an external side effect, which is why it sits outside the
`Except`: calls that already happened survive a later failure. -/
def migrateLoop (T : TargetRepo τ) (sourceCount : Nat) :
    List (List User) → Nat → τ → List (Nat × Nat) →
      Except Err (τ × Nat) × List (Nat × Nat)
  | [], processed, t, prog => (.ok (t, processed), prog)
  | batch :: rest, processed, t, prog =>
    match T.insert batch t with
    | .error e => (.error e, prog)
    | .ok t' =>
      migrateLoop T sourceCount rest (processed + batch.length) t'
        (prog ++ [(processed + batch.length, sourceCount)])

/-- `MigrationService.migrate(options)`: create then clear the target, read
the source count, stream the source batches, insert each batch (aborting on
the first failure), then read the target count; `success` is the equality of
the two counts; errors unwind the whole call (the catch block re-throws).
Returns the result and final target state inside the `Except`, paired with
the `onProgress` invocation record. -/
def migrate (S : SourceRepo σ) (T : TargetRepo τ) (B : Nat) (s : σ) (t : τ) :
    Except Err (MigrationResult × τ) × List (Nat × Nat) :=
  match T.create t with
  | .error e => (.error e, [])
  | .ok t =>
  match T.clear t with
  | .error e => (.error e, [])
  | .ok t =>
  match S.count s with
  | .error e => (.error e, [])
  | .ok (sourceCount, s) =>
  match S.findAll B s with
  | .error e => (.error e, [])
  | .ok (batches, _) =>
  match migrateLoop T sourceCount batches 0 t [] with
  | (.error e, prog) => (.error e, prog)
  | (.ok (t, _), prog) =>
  match T.count t with
  | .error e => (.error e, prog)
  | .ok (targetCount, t) =>
  (.ok ({ sourceCount := sourceCount, targetCount := targetCount,
          success := sourceCount == targetCount }, t), prog)

/-- The `onProgress` invocation record of a run whose batches all insert
successfully, starting from processed-count `n`: after each batch the
running total and the advisory source count. -/
def progressTrace (sourceCount : Nat) : Nat → List (List User) → List (Nat × Nat)
  | _, [] => []
  | n, batch :: rest =>
    (n + batch.length, sourceCount) :: progressTrace sourceCount (n + batch.length) rest

/-- Elasticsearch index state: `none` = the index does not exist,
`some docs` = the indexed documents in scroll (store) order. -/
abbrev ESState := Option (List User)

/-- ClickHouse table state: `none` = the table does not exist,
`some rows` = the stored rows in insertion order. -/
abbrev CHState := Option (List User)

/-- `ElasticsearchUserRepository.exists()`: `indices.exists` — `false` for a
missing index, no throw. -/
def esExists (s : ESState) : Bool := s.isSome

/-- `ClickHouseUserRepository.exists()`: `EXISTS TABLE` — result `0` for a
missing table, no throw. -/
def chExists (s : CHState) : Bool := s.isSome

/-- `ElasticsearchUserRepository.count()`: `client.count` on a missing index
rejects; otherwise the number of indexed documents. -/
def esCountSt (s : ESState) : Except Err Nat :=
  match s with
  | none => .error .notFound
  | some docs => .ok docs.length

/-- `ClickHouseUserRepository.count()`: `SELECT count()` on a missing table
rejects (re-thrown); otherwise the number of rows. -/
def chCountSt (s : CHState) : Except Err Nat :=
  match s with
  | none => .error .notFound
  | some rows => .ok rows.length

/-- `ClickHouseUserRepository.create()`: drops the table if it exists, then
creates it empty with the fixed schema. -/
def chCreateSt (_s : CHState) : Except Err CHState := .ok (some [])

/-- `ClickHouseUserRepository.clear()`: `TRUNCATE` only when the table
exists; a missing table is left untouched. -/
def chClearSt (s : CHState) : Except Err CHState :=
  match s with
  | none => .ok none
  | some _ => .ok (some [])

/-- `ClickHouseUserRepository.insert(users)` against the table state: empty
input is a no-op; inserting into a missing table rejects; otherwise each
record is appended with its timestamp re-encoded (`chEncodeUser`). -/
def chInsertSt (users : List User) (s : CHState) : Except Err CHState :=
  if users.length = 0 then .ok s
  else
    match s with
    | none => .error .notFound
    | some rows => .ok (some (rows ++ users.map chEncodeUser))

/-- `ElasticsearchUserRepository.findAll(batchSize)` against the index state:
opening a scroll on a missing index rejects (re-thrown); otherwise the pages
of `esFindAll`. -/
def esFindAllSt (B : Nat) (s : ESState) : Except Err (List (List User)) :=
  match s with
  | none => .error .notFound
  | some docs => .ok (esFindAll B docs)

/-- The Elasticsearch-backed `SourceRepo` used by the service
(`sourceRepository` instantiated at `ESState`); a quiescent source: reads do
not change the state. -/
def esSourceRepo : SourceRepo ESState where
  count s := (esCountSt s).map (fun n => (n, s))
  findAll B s := (esFindAllSt B s).map (fun bs => (bs, s))

/-- The ClickHouse-backed `TargetRepo` used by the service
(`targetRepository` instantiated at `CHState`). -/
def chTargetRepo : TargetRepo CHState where
  create := chCreateSt
  clear := chClearSt
  insert := chInsertSt
  count t := (chCountSt t).map (fun n => (n, t))

/-- The return shape of `MigrationService.getStatus()`. -/
structure StatusResult where
  sourceExists : Bool
  sourceCount : Nat
  targetExists : Bool
  targetCount : Nat
deriving DecidableEq, Repr

/-- `MigrationService.getStatus()`: checks both existence flags, then queries
each `count()` only for a store whose existence check succeeded, substituting
`0` otherwise. -/
def getStatus (es : ESState) (ch : CHState) : Except Err StatusResult := do
  let sourceExists := esExists es
  let targetExists := chExists ch
  let sourceCount ← if sourceExists then esCountSt es else .ok 0
  let targetCount ← if targetExists then chCountSt ch else .ok 0
  .ok { sourceExists := sourceExists, sourceCount := sourceCount,
        targetExists := targetExists, targetCount := targetCount }


/-- The decimal digit character for `d` (`0`–`9` for `d < 10`). -/
def digitChar (d : Nat) : Char := Char.ofNat (48 + d)

/-- Reads one decimal digit character, `none` for a non-digit. -/
def toDigit? (c : Char) : Option Nat :=
  if c.isDigit then some (c.toNat - 48) else none

/-- Two-digit zero-padded decimal rendering (as in ISO timestamps). -/
def render2 (n : Nat) : List Char := [digitChar (n / 10), digitChar (n % 10)]

/-- Three-digit zero-padded decimal rendering (milliseconds). -/
def render3 (n : Nat) : List Char :=
  [digitChar (n / 100), digitChar (n / 10 % 10), digitChar (n % 10)]

/-- Four-digit zero-padded decimal rendering (years). -/
def render4 (n : Nat) : List Char :=
  [digitChar (n / 1000), digitChar (n / 100 % 10), digitChar (n / 10 % 10), digitChar (n % 10)]

/-- Reads a two-digit number, returning it and the remaining input. -/
def parse2 : List Char → Option (Nat × List Char)
  | c1 :: c2 :: rest => do
    let d1 ← toDigit? c1
    let d2 ← toDigit? c2
    some (d1 * 10 + d2, rest)
  | _ => none

/-- Reads a three-digit number, returning it and the remaining input. -/
def parse3 : List Char → Option (Nat × List Char)
  | c1 :: c2 :: c3 :: rest => do
    let d1 ← toDigit? c1
    let d2 ← toDigit? c2
    let d3 ← toDigit? c3
    some (d1 * 100 + d2 * 10 + d3, rest)
  | _ => none

/-- Reads a four-digit number, returning it and the remaining input. -/
def parse4 : List Char → Option (Nat × List Char)
  | c1 :: c2 :: c3 :: c4 :: rest => do
    let d1 ← toDigit? c1
    let d2 ← toDigit? c2
    let d3 ← toDigit? c3
    let d4 ← toDigit? c4
    some (d1 * 1000 + d2 * 100 + d3 * 10 + d4, rest)
  | _ => none

/-- Consumes one expected character. -/
def expectChar (a : Char) : List Char → Option (List Char)
  | c :: rest => if c = a then some rest else none
  | _ => none

/-- A UTC calendar timestamp at millisecond precision. -/
structure Timestamp where
  year : Nat
  month : Nat
  day : Nat
  hour : Nat
  minute : Nat
  second : Nat
  millis : Nat
deriving DecidableEq, Repr

/-- Field ranges under which the timestamp has a canonical 24-character
ISO-8601 UTC rendering. -/
def Timestamp.Valid (ts : Timestamp) : Prop :=
  ts.year ≤ 9999 ∧ 1 ≤ ts.month ∧ ts.month ≤ 12 ∧ 1 ≤ ts.day ∧ ts.day ≤ 31 ∧
    ts.hour ≤ 23 ∧ ts.minute ≤ 59 ∧ ts.second ≤ 59 ∧ ts.millis ≤ 999

instance (ts : Timestamp) : Decidable ts.Valid := by
  unfold Timestamp.Valid
  infer_instance

/-- The `YYYY-MM-DD` part of the canonical rendering. -/
def dateChars (ts : Timestamp) : List Char :=
  render4 ts.year ++ '-' :: render2 ts.month ++ '-' :: render2 ts.day

/-- The `HH:MM:SS.sss` part of the canonical rendering. -/
def timeChars (ts : Timestamp) : List Char :=
  render2 ts.hour ++ ':' :: render2 ts.minute ++ ':' :: render2 ts.second ++
    '.' :: render3 ts.millis

/-- The canonical ISO-8601 UTC millisecond rendering
`YYYY-MM-DDTHH:MM:SS.sssZ` — the output format of JS `Date.toISOString` and
the format of the generated `User.timestamp` values. -/
def renderISO (ts : Timestamp) : List Char :=
  dateChars ts ++ 'T' :: timeChars ts ++ ['Z']

/-- Reads the `YYYY-MM-DD` prefix: year, month, day and the remaining
input. -/
def parseDate (s : List Char) : Option (Nat × Nat × Nat × List Char) :=
  (parse4 s).bind fun py =>
  (expectChar '-' py.2).bind fun s1 =>
  (parse2 s1).bind fun pmo =>
  (expectChar '-' pmo.2).bind fun s2 =>
  (parse2 s2).bind fun pdy =>
  some (py.1, pmo.1, pdy.1, pdy.2)

/-- Reads the `HH:MM:SS.sss` part: hour, minute, second, millisecond and the
remaining input. -/
def parseTime (s : List Char) : Option (Nat × Nat × Nat × Nat × List Char) :=
  (parse2 s).bind fun phr =>
  (expectChar ':' phr.2).bind fun s1 =>
  (parse2 s1).bind fun pmi =>
  (expectChar ':' pmi.2).bind fun s2 =>
  (parse2 s2).bind fun psec =>
  (expectChar '.' psec.2).bind fun s3 =>
  (parse3 s3).bind fun pms =>
  some (phr.1, pmi.1, psec.1, pms.1, pms.2)

/-- Parser for the canonical 24-character ISO-8601 UTC millisecond format
(the shape JS `new Date(string)` accepts for such strings): positional
digits, fixed separators, nothing trailing, and calendar field ranges. -/
def parseISO (s : List Char) : Option Timestamp :=
  (parseDate s).bind fun pd =>
  (expectChar 'T' pd.2.2.2).bind fun s1 =>
  (parseTime s1).bind fun pt =>
  (expectChar 'Z' pt.2.2.2.2).bind fun s2 =>
  if s2 = [] ∧ 1 ≤ pd.2.1 ∧ pd.2.1 ≤ 12 ∧ 1 ≤ pd.2.2.1 ∧ pd.2.2.1 ≤ 31 ∧
      pt.1 ≤ 23 ∧ pt.2.1 ≤ 59 ∧ pt.2.2.1 ≤ 59 then
    some ⟨pd.1, pd.2.1, pd.2.2.1, pt.1, pt.2.1, pt.2.2.1, pt.2.2.2.1⟩
  else none

/-- JS `new Date(s).toISOString()` on a string in the canonical UTC
millisecond format: parses the components and re-serializes them; any other
input is an invalid date (`none`, where the real code would raise a
`RangeError`). -/
def jsDateToISOString (s : List Char) : Option (List Char) :=
  (parseISO s).map renderISO

/-- The normalization `MigrationService.verifySampleData` applies to a
ClickHouse-returned timestamp before comparison:
`new Date(t.replace(" ", "T") + "Z").toISOString()`. -/
def normalizeTimestamp (t : List Char) : Option (List Char) :=
  jsDateToISOString (replaceFirstChar ' ' 'T' t ++ ['Z'])

theorem digitChar_isDigit (d : Nat) (hd : d < 10) : (digitChar d).isDigit = true := by
  interval_cases d <;> decide

theorem toDigit?_digitChar (d : Nat) (hd : d < 10) : toDigit? (digitChar d) = some d := by
  interval_cases d <;> decide

theorem digitChar_ne (d : Nat) (hd : d < 10) (c : Char) (hc : c.isDigit = false) :
    digitChar d ≠ c := by
  intro h
  rw [← h, digitChar_isDigit d hd] at hc
  exact Bool.noConfusion hc

theorem replaceFirstChar_cons_self (a b : Char) (cs : List Char) :
    replaceFirstChar a b (a :: cs) = b :: cs := by
  simp [replaceFirstChar]

theorem replaceFirstChar_append (a b : Char) (xs ys : List Char) (h : a ∉ xs) :
    replaceFirstChar a b (xs ++ a :: ys) = xs ++ b :: ys := by
  induction xs with
  | nil => simp [replaceFirstChar_cons_self]
  | cons c cs ih =>
    have hca : c ≠ a := by
      intro habs; exact h (habs ▸ List.mem_cons_self c cs)
    have hmem : a ∉ cs := fun hm => h (List.mem_cons_of_mem c hm)
    simp [replaceFirstChar, hca, Ne.symm hca, ih hmem]

theorem removeFirstChar_append (a : Char) (xs ys : List Char) (h : a ∉ xs) :
    removeFirstChar a (xs ++ a :: ys) = xs ++ ys := by
  induction xs with
  | nil => simp [removeFirstChar]
  | cons c cs ih =>
    have hca : c ≠ a := by
      intro habs; exact h (habs ▸ List.mem_cons_self c cs)
    have hmem : a ∉ cs := fun hm => h (List.mem_cons_of_mem c hm)
    simp [removeFirstChar, hca, Ne.symm hca, ih hmem]

theorem dateChars_explicit (y mo dy hr mi sec ms : Nat) :
    dateChars ⟨y, mo, dy, hr, mi, sec, ms⟩ =
      [digitChar (y / 1000), digitChar (y / 100 % 10), digitChar (y / 10 % 10),
       digitChar (y % 10), '-', digitChar (mo / 10), digitChar (mo % 10), '-',
       digitChar (dy / 10), digitChar (dy % 10)] := by
  simp [dateChars, render4, render2]

theorem timeChars_explicit (y mo dy hr mi sec ms : Nat) :
    timeChars ⟨y, mo, dy, hr, mi, sec, ms⟩ =
      [digitChar (hr / 10), digitChar (hr % 10), ':', digitChar (mi / 10),
       digitChar (mi % 10), ':', digitChar (sec / 10), digitChar (sec % 10), '.',
       digitChar (ms / 100), digitChar (ms / 10 % 10), digitChar (ms % 10)] := by
  simp [timeChars, render2, render3]

/-- A non-digit character other than `-` does not occur in the date part. -/
theorem notMem_dateChars (ts : Timestamp) (hv : ts.Valid) (c : Char)
    (hcd : c.isDigit = false) (hdash : c ≠ '-') : c ∉ dateChars ts := by
  obtain ⟨y, mo, dy, hr, mi, sec, ms⟩ := ts
  simp only [Timestamp.Valid] at hv
  obtain ⟨h1, h2, h3, h4, h5, h6, h7, h8, h9⟩ := hv
  rw [dateChars_explicit]
  intro hmem
  simp only [List.mem_cons, List.not_mem_nil, or_false] at hmem
  rcases hmem with h | h | h | h | h | h | h | h | h | h <;>
    first
      | exact hdash h
      | exact digitChar_ne _ (by omega) c hcd h.symm

/-- A non-digit character other than `:` and `.` does not occur in the time
part. -/
theorem notMem_timeChars (ts : Timestamp) (hv : ts.Valid) (c : Char)
    (hcd : c.isDigit = false) (hcolon : c ≠ ':') (hdot : c ≠ '.') :
    c ∉ timeChars ts := by
  obtain ⟨y, mo, dy, hr, mi, sec, ms⟩ := ts
  simp only [Timestamp.Valid] at hv
  obtain ⟨h1, h2, h3, h4, h5, h6, h7, h8, h9⟩ := hv
  rw [timeChars_explicit]
  intro hmem
  simp only [List.mem_cons, List.not_mem_nil, or_false] at hmem
  rcases hmem with h | h | h | h | h | h | h | h | h | h | h | h <;>
    first
      | exact hcolon h
      | exact hdot h
      | exact digitChar_ne _ (by omega) c hcd h.symm

theorem renderISO_assoc (ts : Timestamp) :
    renderISO ts = dateChars ts ++ 'T' :: (timeChars ts ++ ['Z']) := by
  simp [renderISO]

/-- The ClickHouse insert encoding turns the canonical rendering into the
`YYYY-MM-DD HH:MM:SS.sss` form. -/
theorem encodeTimestamp_renderISO (ts : Timestamp) (hv : ts.Valid) :
    encodeTimestamp (renderISO ts) = dateChars ts ++ ' ' :: timeChars ts := by
  unfold encodeTimestamp
  rw [renderISO_assoc]
  rw [replaceFirstChar_append 'T' ' ' (dateChars ts) (timeChars ts ++ ['Z'])
    (notMem_dateChars ts hv 'T' (by decide) (by decide))]
  have hsplit : dateChars ts ++ ' ' :: (timeChars ts ++ ['Z']) =
      (dateChars ts ++ ' ' :: timeChars ts) ++ 'Z' :: [] := by
    simp
  rw [hsplit, removeFirstChar_append 'Z' (dateChars ts ++ ' ' :: timeChars ts) []]
  · simp
  · intro hmem
    rcases List.mem_append.mp hmem with h | h
    · exact notMem_dateChars ts hv 'Z' (by decide) (by decide) h
    · rcases List.mem_cons.mp h with h | h
      · exact absurd h (by decide)
      · exact notMem_timeChars ts hv 'Z' (by decide) (by decide) (by decide) h

theorem expectChar_cons_self (a : Char) (rest : List Char) :
    expectChar a (a :: rest) = some rest := by
  simp [expectChar]

theorem parse2_render2 (n : Nat) (h : n ≤ 99) (rest : List Char) :
    parse2 (render2 n ++ rest) = some (n, rest) := by
  have e1 := toDigit?_digitChar (n / 10) (by omega)
  have e2 := toDigit?_digitChar (n % 10) (by omega)
  simp [render2, parse2, e1, e2]
  omega

theorem parse3_render3 (n : Nat) (h : n ≤ 999) (rest : List Char) :
    parse3 (render3 n ++ rest) = some (n, rest) := by
  have e1 := toDigit?_digitChar (n / 100) (by omega)
  have e2 := toDigit?_digitChar (n / 10 % 10) (by omega)
  have e3 := toDigit?_digitChar (n % 10) (by omega)
  simp [render3, parse3, e1, e2, e3]
  omega

theorem parse4_render4 (n : Nat) (h : n ≤ 9999) (rest : List Char) :
    parse4 (render4 n ++ rest) = some (n, rest) := by
  have e1 := toDigit?_digitChar (n / 1000) (by omega)
  have e2 := toDigit?_digitChar (n / 100 % 10) (by omega)
  have e3 := toDigit?_digitChar (n / 10 % 10) (by omega)
  have e4 := toDigit?_digitChar (n % 10) (by omega)
  simp [render4, parse4, e1, e2, e3, e4]
  omega

theorem parseDate_render (y mo dy : Nat) (hy : y ≤ 9999) (hmo : mo ≤ 99)
    (hdy : dy ≤ 99) (rest : List Char) :
    parseDate (render4 y ++ '-' :: (render2 mo ++ '-' :: (render2 dy ++ rest))) =
      some (y, mo, dy, rest) := by
  have hp4 := parse4_render4 y hy
  have hpmo := parse2_render2 mo hmo
  have hpdy := parse2_render2 dy hdy
  simp only [parseDate, hp4, hpmo, hpdy, expectChar_cons_self, Option.some_bind]

theorem parseTime_render (hr mi sec ms : Nat) (hhr : hr ≤ 99) (hmi : mi ≤ 99)
    (hsec : sec ≤ 99) (hms : ms ≤ 999) (rest : List Char) :
    parseTime (render2 hr ++ ':' :: (render2 mi ++ ':' :: (render2 sec ++
        '.' :: (render3 ms ++ rest)))) =
      some (hr, mi, sec, ms, rest) := by
  have hphr := parse2_render2 hr hhr
  have hpmi := parse2_render2 mi hmi
  have hpsec := parse2_render2 sec hsec
  have hpms := parse3_render3 ms hms
  simp only [parseTime, hphr, hpmi, hpsec, hpms, expectChar_cons_self,
    Option.some_bind]

/-- Parsing the canonical rendering of a valid timestamp recovers it. -/
theorem parseISO_renderISO (ts : Timestamp) (hv : ts.Valid) :
    parseISO (renderISO ts) = some ts := by
  obtain ⟨y, mo, dy, hr, mi, sec, ms⟩ := ts
  simp only [Timestamp.Valid] at hv
  obtain ⟨h1, h2, h3, h4, h5, h6, h7, h8, h9⟩ := hv
  have hshape : renderISO ⟨y, mo, dy, hr, mi, sec, ms⟩ =
      render4 y ++ '-' :: (render2 mo ++ '-' :: (render2 dy ++
        ('T' :: (render2 hr ++ ':' :: (render2 mi ++ ':' :: (render2 sec ++
          '.' :: (render3 ms ++ ['Z'])))))))  := by
    simp [renderISO, dateChars, timeChars]
  rw [hshape]
  have hd := parseDate_render y mo dy (by omega) (by omega) (by omega)
  have ht := parseTime_render hr mi sec ms (by omega) (by omega) (by omega)
    (by omega)
  simp only [parseISO, hd, ht, expectChar_cons_self, Option.some_bind]
  rw [if_pos]
  exact ⟨trivial, h2, h3, h4, h5, h6, h7, h8⟩

/-- Concrete user fixtures (ids `a`, `b`, `c`, as in the integration test's
three-record scenario). -/
def userA : User :=
  { id := "a", firstName := "Jane", lastName := "Smith", age := 25,
    followersCount := 3000, timestamp := [] }

def userB : User :=
  { id := "b", firstName := "John", lastName := "Doe", age := 30,
    followersCount := 1500, timestamp := [] }

def userC : User :=
  { id := "c", firstName := "Peter", lastName := "Jones", age := 42,
    followersCount := 500, timestamp := [] }

/-- A source repository double returning a fixed count and a fixed batch
stream — ranging over it captures every throw-free source behaviour the
engine can observe. -/
def oracleSource (sc : Nat) (batches : List (List User)) : SourceRepo Unit where
  count _ := .ok (sc, ())
  findAll _ _ := .ok (batches, ())

/-- A target repository double whose operations never throw and whose
`count()` answers `tc` — ranging over `tc` captures every throw-free target
count the engine can observe after the loop. -/
def oracleTarget (tc : Nat) : TargetRepo Unit where
  create t := .ok t
  clear t := .ok t
  insert _ t := .ok t
  count t := .ok (tc, t)

/-- An instrumented target repository double: the state counts insert calls
and logs the accepted batches; the insert call numbered `failAt` rejects with
an error carrying the log of batches accepted before it. -/
def failingTarget (failAt : Nat) : TargetRepo (Nat × List (List User)) where
  create t := .ok t
  clear t := .ok t
  insert b t :=
    if t.1 = failAt then .error (.probeLog t.2) else .ok (t.1 + 1, t.2 ++ [b])
  count t := .ok (t.2.flatten.length, t)

/-- On a target that never throws, the loop consumes every batch, adds up all
their lengths and reports progress after each batch. -/
theorem migrateLoop_oracle (tc sc : Nat) :
    ∀ (batches : List (List User)) (n : Nat) (prog : List (Nat × Nat)),
      migrateLoop (oracleTarget tc) sc batches n () prog =
        (.ok ((), n + batches.flatten.length),
         prog ++ progressTrace sc n batches) := by
  intro batches
  induction batches with
  | nil => intro n prog; simp [migrateLoop, progressTrace]
  | cons b bs ih =>
    intro n prog
    have hins : (oracleTarget tc).insert b () = .ok () := rfl
    simp only [migrateLoop, hins, ih (n + b.length), progressTrace,
      List.flatten_cons, List.length_append, List.append_assoc,
      List.singleton_append, Nat.add_assoc]

/-- If the insert numbered `c + k` is the one that fails, the loop on a
batch list longer than `k` (starting from `c` prior accepted inserts) stops
with the error carrying the first `k` batches, having reported progress for
exactly those `k` batches. -/
theorem migrateLoop_failing (sc : Nat) :
    ∀ (batches : List (List User)) (k c : Nat) (log : List (List User))
      (n : Nat) (prog : List (Nat × Nat)), k < batches.length →
      migrateLoop (failingTarget (c + k)) sc batches n (c, log) prog =
        (.error (.probeLog (log ++ batches.take k)),
         prog ++ progressTrace sc n (batches.take k)) := by
  intro batches
  induction batches with
  | nil => intro k c log n prog hk; simp at hk
  | cons b bs ih =>
    intro k c log n prog hk
    cases k with
    | zero =>
      simp [migrateLoop, failingTarget, progressTrace]
    | succ k' =>
      have hne : ¬ (c = c + (k' + 1)) := by omega
      have hk' : k' < bs.length := by simpa using Nat.lt_of_succ_lt_succ hk
      have hins : (failingTarget (c + (k' + 1))).insert b (c, log) =
          .ok (c + 1, log ++ [b]) := by
        simp [failingTarget, hne]
      have hre : failingTarget (c + (k' + 1)) = failingTarget ((c + 1) + k') := by
        have : c + (k' + 1) = (c + 1) + k' := by omega
        rw [this]
      simp only [migrateLoop, hins, List.take_succ_cons, progressTrace]
      rw [hre, ih k' (c + 1) (log ++ [b]) (n + b.length)
        (prog ++ [(n + b.length, sc)]) hk']
      simp [List.append_assoc]

/-- C3: on any throw-free run, the result is returned normally (no throw)
with `success` equal to the equality of the pre-loop source count and the
post-loop target count — both supplied by the repositories, independent of
the running processed-count. -/
theorem migrate_success_iff_counts_match (sc tc B : Nat)
    (batches : List (List User)) :
    migrate (oracleSource sc batches) (oracleTarget tc) B () () =
      (.ok ({ sourceCount := sc, targetCount := tc, success := sc == tc }, ()),
       progressTrace sc 0 batches) := by
  have h1 : (oracleTarget tc).create () = .ok () := rfl
  have h2 : (oracleTarget tc).clear () = .ok () := rfl
  have h3 : (oracleSource sc batches).count () = .ok (sc, ()) := rfl
  have h4 : (oracleSource sc batches).findAll B () = .ok (batches, ()) := rfl
  have h5 := migrateLoop_oracle tc sc batches 0 []
  have h6 : (oracleTarget tc).count () = .ok (tc, ()) := rfl
  simp only [migrate, h1, h2, h3, h4, h5, h6, List.nil_append]

/-- C4: if the destination insert of batch `k` fails, `migrate` returns that
error (carrying the insert log = exactly the first `k` batches — nothing
later was inserted) and the `onProgress` record is that of the first `k`
batches only. -/
theorem migrate_insert_failure_aborts (sc B k : Nat)
    (batches : List (List User)) (hk : k < batches.length) :
    migrate (oracleSource sc batches) (failingTarget k) B ()
        ((0 : Nat), ([] : List (List User))) =
      (.error (.probeLog (batches.take k)),
       progressTrace sc 0 (batches.take k)) := by
  have h1 : (failingTarget k).create (0, []) = .ok (0, []) := rfl
  have h2 : (failingTarget k).clear (0, []) = .ok (0, []) := rfl
  have h3 : (oracleSource sc batches).count () = .ok (sc, ()) := rfl
  have h4 : (oracleSource sc batches).findAll B () = .ok (batches, ()) := rfl
  have h5 := migrateLoop_failing sc batches k 0 [] 0 [] hk
  rw [Nat.zero_add] at h5
  simp only [migrate, h1, h2, h3, h4, h5, List.nil_append]

/-- Inserting a batch stream into a present ClickHouse table appends every
record timestamp-encoded, accumulating lengths and progress. -/
theorem migrateLoop_chTarget (sc : Nat) :
    ∀ (batches : List (List User)) (n : Nat) (rows : List User)
      (prog : List (Nat × Nat)),
      migrateLoop chTargetRepo sc batches n (some rows) prog =
        (.ok (some (rows ++ batches.flatten.map chEncodeUser),
              n + batches.flatten.length),
         prog ++ progressTrace sc n batches) := by
  intro batches
  induction batches with
  | nil => intro n rows prog; simp [migrateLoop, progressTrace]
  | cons b bs ih =>
    intro n rows prog
    by_cases hb : b.length = 0
    · have hbnil : b = [] := List.length_eq_zero.mp hb
      subst hbnil
      have hins : chTargetRepo.insert [] (some rows) = .ok (some rows) := rfl
      simp only [migrateLoop, hins, ih, progressTrace, List.flatten_cons,
        List.nil_append, List.length_nil, Nat.add_zero, List.append_assoc,
        List.singleton_append]
    · have hins : chTargetRepo.insert b (some rows) =
          .ok (some (rows ++ b.map chEncodeUser)) := by
        simp [chTargetRepo, chInsertSt, hb]
      simp only [migrateLoop, hins, ih, progressTrace, List.flatten_cons,
        List.map_append, List.length_append, List.append_assoc,
        List.singleton_append, Nat.add_assoc]

/-- One full Elasticsearch → ClickHouse run over a present source: the
destination is reset and ends up with exactly the source records
(timestamp-encoded); both counts equal the source size and `success` holds —
independently of the destination's prior state `ch`. -/
theorem migrate_chTarget_run (B : Nat) (hB : 1 ≤ B) (docs : List User)
    (ch : CHState) :
    migrate esSourceRepo chTargetRepo B (some docs) ch =
      (.ok ({ sourceCount := docs.length, targetCount := docs.length,
              success := true }, some (docs.map chEncodeUser)),
       progressTrace docs.length 0 (chunksOf B docs)) := by
  have h1 : chTargetRepo.create ch = .ok (some []) := rfl
  have h2 : chTargetRepo.clear (some []) = .ok (some []) := rfl
  have h3 : esSourceRepo.count (some docs) = .ok (docs.length, some docs) := rfl
  have h4 : esSourceRepo.findAll B (some docs) =
      .ok (chunksOf B docs, some docs) := rfl
  have h5 := migrateLoop_chTarget docs.length (chunksOf B docs) 0 [] []
  rw [flatten_chunksOf B hB docs] at h5
  simp only [List.nil_append, Nat.zero_add] at h5
  have h6 : chTargetRepo.count (some (docs.map chEncodeUser)) =
      .ok ((docs.map chEncodeUser).length, some (docs.map chEncodeUser)) := rfl
  simp only [migrate, h1, h2, h3, h4, h5, h6, List.length_map, beq_self_eq_true]

/-- C6: two successive `migrate` runs over the same fixed source population
return identical source counts, target counts and success flags, whatever
state the first run found the destination in (step 1 resets it). -/
theorem migrate_rerun_same_result (B : Nat) (hB : 1 ≤ B) (docs : List User)
    (ch : CHState) :
    ∃ res st,
      migrate esSourceRepo chTargetRepo B (some docs) ch =
        (.ok (res, st), progressTrace docs.length 0 (chunksOf B docs)) ∧
      migrate esSourceRepo chTargetRepo B (some docs) st =
        (.ok (res, st), progressTrace docs.length 0 (chunksOf B docs)) ∧
      res.sourceCount = docs.length ∧ res.targetCount = docs.length ∧
      res.success = true :=
  ⟨_, _, migrate_chTarget_run B hB docs ch,
    migrate_chTarget_run B hB docs _, rfl, rfl, rfl⟩

/-- C7: `getStatus` on two stores whose existence checks answer `false`
resolves (does not throw) with both flags `false` and both counts `0`; the
`count()` queries are guarded by the existence results. -/
theorem getStatus_nonexistent (es : ESState) (ch : CHState)
    (hse : esExists es = false) (hte : chExists ch = false) :
    getStatus es ch = .ok { sourceExists := false, sourceCount := 0,
                            targetExists := false, targetCount := 0 } := by
  have hes : es = none := by
    cases es with
    | none => rfl
    | some d => simp [esExists] at hse
  have hch : ch = none := by
    cases ch with
    | none => rfl
    | some d => simp [chExists] at hte
  subst hes; subst hch
  rfl

/-- C1 counterexample: a non-empty batch whose bulk write reports a failed
record (`response.errors = true`) still resolves successfully — the
Elasticsearch adapter's insert only logs a warning, it does not reject. -/
theorem esInsert_bulk_errors_resolves :
    esInsert [userA] (BulkOutcome.response true) = .ok () := rfl

/-- C1 (amended): for a non-empty batch, the ClickHouse insert propagates any
client failure and the Elasticsearch insert propagates a thrown `bulk`
error, but a bulk response reporting per-record failures is only logged —
the Elasticsearch insert resolves successfully. -/
theorem insert_error_policy (users : List User) (e : Err) (h : users ≠ []) :
    chInsert users (.error e) = .error e ∧
    esInsert users (.thrown e) = .error e ∧
    esInsert users (.response true) = .ok () := by
  have hlen : ¬ (users.length = 0) := by
    simpa [List.length_eq_zero] using h
  simp [chInsert, esInsert, hlen]

theorem insert_error_policy_witness :
    ([userA] : List User) ≠ [] ∧
    (chInsert [userA] (.error .transport) = .error .transport ∧
     esInsert [userA] (.thrown .transport) = .error .transport ∧
     esInsert [userA] (.response true) = .ok ()) :=
  ⟨by simp, insert_error_policy [userA] .transport (by simp)⟩

/-- C2 counterexample: the Elasticsearch `findAll` pages a `match_all`
scroll with no sort, so it yields the store's scroll order — here a store
holding ids `b`, `a` in that order yields batch `[b]` before batch `[a]`,
violating ascending-id ordering across batches. -/
theorem esFindAll_not_ordered_by_id :
    esFindAll 1 [userB, userA] = [[userB], [userA]] ∧
    ¬ (userB.id ≤ userA.id) := by
  constructor
  · show chunksOf 1 [userB, userA] = [[userB], [userA]]
    rw [chunksOf_of_ne 1 [userB, userA] (by simp) (by simp)]
    simp only [List.take_succ_cons, List.take_zero, List.drop_succ_cons,
      List.drop_zero]
    rw [chunksOf_of_ne 1 [userA] (by simp) (by simp)]
    simp [chunksOf_nil]
  · show ¬ (("b" : String) ≤ "a")
    rw [String.le_iff_toList_le]
    decide

/-- C2 (amended): the ClickHouse `findAll` (backed by `SELECT ... ORDER BY
id`) does deliver ascending-id ordering: if the streamed rows are sorted by
id, every yielded batch is sorted and batches are pairwise ordered across
the sequence — for any transport chunking. -/
theorem chFindAll_ordered_by_id (B : Nat) (rows : List User)
    (chunks : List (List User)) (hB : 1 ≤ B) (hflat : chunks.flatten = rows)
    (hsorted : rows.Sorted (fun u v : User => u.id ≤ v.id)) :
    (∀ b ∈ chFindAll B chunks, b.Sorted (fun u v : User => u.id ≤ v.id)) ∧
    (chFindAll B chunks).Pairwise
      (fun b1 b2 => ∀ u ∈ b1, ∀ v ∈ b2, u.id ≤ v.id) := by
  have heq : chFindAll B chunks = chunksOf B rows := by
    rw [chFindAll_eq_chunksOf B hB, hflat]
  have hp : List.Pairwise (fun u v : User => u.id ≤ v.id)
      ((chunksOf B rows).flatten) := by
    rw [flatten_chunksOf B hB rows]
    exact hsorted
  rw [heq]
  have hsplit := List.pairwise_flatten.mp hp
  exact ⟨fun b hb => hsplit.1 b hb, hsplit.2⟩

theorem chFindAll_ordered_by_id_witness :
    ((1 : Nat) ≤ 2 ∧
     ([[userA, userB], [userC]] : List (List User)).flatten =
       [userA, userB, userC] ∧
     ([userA, userB, userC] : List User).Sorted
       (fun u v : User => u.id ≤ v.id)) ∧
    (∀ b ∈ chFindAll 2 [[userA, userB], [userC]],
      b.Sorted (fun u v : User => u.id ≤ v.id)) := by
  have hab : userA.id ≤ userB.id := by
    show ("a" : String) ≤ "b"
    rw [String.le_iff_toList_le]; decide
  have hac : userA.id ≤ userC.id := by
    show ("a" : String) ≤ "c"
    rw [String.le_iff_toList_le]; decide
  have hbc : userB.id ≤ userC.id := by
    show ("b" : String) ≤ "c"
    rw [String.le_iff_toList_le]; decide
  have hsorted : ([userA, userB, userC] : List User).Sorted
      (fun u v : User => u.id ≤ v.id) := by
    refine List.Pairwise.cons ?_ (List.Pairwise.cons ?_
      (List.pairwise_singleton _ _))
    · intro v hv
      rcases List.mem_cons.mp hv with rfl | hv
      · exact hab
      · rcases List.mem_cons.mp hv with rfl | hv
        · exact hac
        · simp at hv
    · intro v hv
      rcases List.mem_cons.mp hv with rfl | hv
      · exact hbc
      · simp at hv
  exact ⟨⟨by decide, by decide, hsorted⟩,
    (chFindAll_ordered_by_id 2 [userA, userB, userC] [[userA, userB], [userC]]
      (by decide) (by decide) hsorted).1⟩

/-- C5: for `B ≥ 1`, both `findAll` generators deliver only non-empty
batches of size at most `B`; every batch except the last has size exactly
`B`, and the last has size `N % B` when that is positive (`B` when `B`
divides `N`). `chunks` ranges over the arbitrary transport chunking of the
ClickHouse row stream. -/
theorem findAll_batch_sizes (B : Nat) (docs rows : List User)
    (chunks : List (List User)) (hB : 1 ≤ B) (hflat : chunks.flatten = rows) :
    (∀ c ∈ chFindAll B chunks, c ≠ [] ∧ c.length ≤ B) ∧
    (∀ c ∈ (chFindAll B chunks).dropLast, c.length = B) ∧
    (rows ≠ [] → ∃ c, (chFindAll B chunks).getLast? = some c ∧
      c.length = (if rows.length % B = 0 then B else rows.length % B)) ∧
    (∀ c ∈ esFindAll B docs, c ≠ [] ∧ c.length ≤ B) ∧
    (∀ c ∈ (esFindAll B docs).dropLast, c.length = B) ∧
    (docs ≠ [] → ∃ c, (esFindAll B docs).getLast? = some c ∧
      c.length = (if docs.length % B = 0 then B else docs.length % B)) := by
  have heq : chFindAll B chunks = chunksOf B rows := by
    rw [chFindAll_eq_chunksOf B hB, hflat]
  rw [heq]
  exact ⟨fun c hc => ⟨ne_nil_of_mem_chunksOf B rows c hc,
          length_le_of_mem_chunksOf B rows c hc⟩,
        length_eq_of_mem_dropLast_chunksOf B rows,
        fun hne => getLast_length_chunksOf B hB rows hne,
        fun c hc => ⟨ne_nil_of_mem_chunksOf B docs c hc,
          length_le_of_mem_chunksOf B docs c hc⟩,
        length_eq_of_mem_dropLast_chunksOf B docs,
        fun hne => getLast_length_chunksOf B hB docs hne⟩

theorem findAll_batch_sizes_witness :
    ((1 : Nat) ≤ 2 ∧
     ([[userA], [userB, userC]] : List (List User)).flatten =
       [userA, userB, userC]) ∧
    (([userA, userB, userC] : List User) ≠ [] →
      ∃ c, (chFindAll 2 [[userA], [userB, userC]]).getLast? = some c ∧
        c.length = (if ([userA, userB, userC] : List User).length % 2 = 0
          then 2 else ([userA, userB, userC] : List User).length % 2)) :=
  ⟨⟨by decide, by decide⟩,
   (findAll_batch_sizes 2 [userA, userB, userC] [userA, userB, userC]
     [[userA], [userB, userC]] (by decide) (by decide)).2.2.1⟩

/-- C8 counterexample: the ClickHouse adapter's `getSample` converts a
thrown client failure into a successful empty result instead of propagating
it. -/
theorem chGetSample_swallows_error :
    chGetSample (.error .transport) = .ok ([] : List User) := rfl

/-- C8 (amended): `exists`, `create`, `clear`, `insert`, `count` and
`findAll` on both adapters re-throw any client failure (never retrying or
converting it into a success), but `getSample` and `findByIds` on both
adapters catch it and resolve with an empty array. -/
theorem adapter_error_policy (e : Err) (B : Nat) :
    chExistsOp (.error e) = .error e ∧
    chCreateOp (.error e) = .error e ∧
    chClearOp (.error e) = .error e ∧
    chInsert [userA] (.error e) = .error e ∧
    chCount (.error e) = .error e ∧
    chFindAllOpen (.error e) B = .error e ∧
    esExistsOp (.error e) = .error e ∧
    esCreateOp (.error e) = .error e ∧
    esClearOp (.error e) = .error e ∧
    esInsert [userA] (.thrown e) = .error e ∧
    esCountOp (.error e) = .error e ∧
    esFindAllOp (.error e) = .error e ∧
    chGetSample (.error e) = .ok [] ∧
    esGetSample (.error e) = .ok [] ∧
    chFindByIdsOp ["a"] (.error e) = .ok [] ∧
    esFindByIdsOp ["a"] (.error e) = .ok [] :=
  ⟨rfl, rfl, rfl, rfl, rfl, rfl, rfl, rfl, rfl, rfl, rfl, rfl, rfl, rfl, rfl,
   rfl⟩

/-- A document as `insert` leaves it in the index: a server-assigned
auto-generated `_id` (here `g1`) carrying the record with id field `a`. -/
def docG1 : ESDoc := { docId := "g1", src := userA }

/-- C9 counterexample: the store holds the record with identifier `a`
(as the `_source` of a document whose auto-generated `_id` is `g1`), yet
`findByIds(["a"])` on the Elasticsearch adapter returns nothing — the `ids`
query matches the `_id` metadata, which `insert` never sets to the record
identifier. -/
theorem esFindByIds_misses_record_ids :
    esFindByIds ["a"] [docG1] = ([], true) ∧ docG1.src.id = "a" := by
  constructor
  · decide
  · rfl

/-- C9 (amended): `findByIds([])` answers `([], no query issued)` on both
adapters and even on a missing table. The ClickHouse `findByIds` returns
exactly the stored records whose `id` column value occurs in the request
(missing identifiers silently absent). The Elasticsearch `findByIds`
matches the document metadata `_id` instead: it returns the `_source`s of
the documents whose `_id` occurs in the request — in particular nothing
when no auto-generated `_id` coincides with a requested record
identifier. -/
theorem findByIds_lookup_semantics (ids : List String) (rows : List User)
    (docs : List ESDoc) (hnd : (docs.map ESDoc.docId).Nodup) :
    chFindByIds [] (some rows) = ([], false) ∧
    chFindByIds [] none = ([], false) ∧
    esFindByIds [] docs = ([], false) ∧
    (∀ u, u ∈ (chFindByIds ids (some rows)).1 ↔ u ∈ rows ∧ u.id ∈ ids) ∧
    ((esFindByIds ids docs).1 =
      (docs.filter (fun d => ids.contains d.docId)).map ESDoc.src) ∧
    ((∀ d ∈ docs, d.docId ∉ ids) → (esFindByIds ids docs).1 = []) := by
  have hes : (esFindByIds ids docs).1 =
      (docs.filter (fun d => ids.contains d.docId)).map ESDoc.src := by
    by_cases hids : ids.length = 0
    · have h0 : ids = [] := List.length_eq_zero.mp hids
      subst h0
      simp [esFindByIds]
    · have hnodup : ((docs.filter (fun d => ids.contains d.docId)).map
          ESDoc.docId).Nodup :=
        List.Nodup.sublist ((List.filter_sublist docs).map ESDoc.docId) hnd
      have hsubset : (docs.filter (fun d => ids.contains d.docId)).map
          ESDoc.docId ⊆ ids := by
        intro x hx
        rcases List.mem_map.mp hx with ⟨d, hd, rfl⟩
        have := (List.mem_filter.mp hd).2
        simpa using this
      have hlen : (docs.filter (fun d => ids.contains d.docId)).length ≤
          ids.length := by
        have := (List.subperm_of_subset hnodup hsubset).length_le
        simpa using this
      unfold esFindByIds
      rw [if_neg hids]
      exact List.take_of_length_le (by simpa using hlen)
  refine ⟨rfl, rfl, rfl, ?_, hes, ?_⟩
  · intro u
    by_cases hids : ids.length = 0
    · have h0 : ids = [] := List.length_eq_zero.mp hids
      subst h0
      simp [chFindByIds]
    · simp [chFindByIds, hids, List.mem_filter]
  · intro hdisj
    rw [hes]
    have hfil : docs.filter (fun d => ids.contains d.docId) = [] := by
      rw [List.filter_eq_nil_iff]
      intro d hd
      simpa using hdisj d hd
    rw [hfil]
    rfl

theorem findByIds_lookup_semantics_witness :
    (([docG1] : List ESDoc).map ESDoc.docId).Nodup ∧
    (userA ∈ (chFindByIds ["a"] (some [userA, userB])).1 ↔
      userA ∈ [userA, userB] ∧ userA.id ∈ ["a"]) ∧
    ((∀ d ∈ ([docG1] : List ESDoc), d.docId ∉ ["a"]) →
      (esFindByIds ["a"] [docG1]).1 = []) :=
  ⟨by decide,
   (findByIds_lookup_semantics ["a"] [userA, userB] [docG1]
     (by decide)).2.2.2.1 userA,
   (findByIds_lookup_semantics ["a"] [userA, userB] [docG1]
     (by decide)).2.2.2.2.2⟩

/-- C10: for every valid timestamp, the destination insert encoding
(`replace("T", " ").replace("Z", "")`) followed by the sample-verification
normalization (`new Date(t.replace(" ", "T") + "Z").toISOString()`) is the
identity on the canonical ISO rendering: the round trip is lossless. -/
theorem timestamp_roundtrip (ts : Timestamp) (hv : ts.Valid) :
    normalizeTimestamp (encodeTimestamp (renderISO ts)) = some (renderISO ts) := by
  rw [encodeTimestamp_renderISO ts hv]
  unfold normalizeTimestamp
  rw [replaceFirstChar_append ' ' 'T' (dateChars ts) (timeChars ts)
    (notMem_dateChars ts hv ' ' (by decide) (by decide))]
  have hre : (dateChars ts ++ 'T' :: timeChars ts) ++ ['Z'] = renderISO ts := by
    rw [renderISO_assoc]
    simp
  rw [hre]
  unfold jsDateToISOString
  rw [parseISO_renderISO ts hv]
  rfl

def tsW : Timestamp :=
  { year := 2024, month := 1, day := 15, hour := 10, minute := 30,
    second := 0, millis := 123 }

theorem timestamp_roundtrip_witness :
    tsW.Valid ∧
    normalizeTimestamp (encodeTimestamp (renderISO tsW)) = some (renderISO tsW) :=
  ⟨by decide, timestamp_roundtrip tsW (by decide)⟩

theorem migrate_insert_failure_aborts_witness :
    (1 < ([[userA], [userB]] : List (List User)).length) ∧
    migrate (oracleSource 2 [[userA], [userB]]) (failingTarget 1) 1 ()
        ((0 : Nat), ([] : List (List User))) =
      (.error (.probeLog [[userA]]), [(1, 2)]) := by
  refine ⟨by decide, ?_⟩
  rw [migrate_insert_failure_aborts 2 1 1 [[userA], [userB]] (by decide)]
  rfl

theorem migrate_rerun_same_result_witness :
    (1 : Nat) ≤ 1 ∧
    ∃ res st,
      migrate esSourceRepo chTargetRepo 1 (some [userA]) none =
        (.ok (res, st), progressTrace [userA].length 0 (chunksOf 1 [userA])) ∧
      migrate esSourceRepo chTargetRepo 1 (some [userA]) st =
        (.ok (res, st), progressTrace [userA].length 0 (chunksOf 1 [userA])) ∧
      res.sourceCount = [userA].length ∧ res.targetCount = [userA].length ∧
      res.success = true :=
  ⟨le_rfl, migrate_rerun_same_result 1 le_rfl [userA] none⟩

theorem getStatus_nonexistent_witness :
    esExists none = false ∧ chExists none = false ∧
    getStatus none none = .ok { sourceExists := false, sourceCount := 0,
                                targetExists := false, targetCount := 0 } :=
  ⟨rfl, rfl, getStatus_nonexistent none none rfl rfl⟩
